import Mathlib

/-!
Verification of the `labels` crate (src/intern.rs and src/lib.rs): a value
interner with permanent (leaked) canonical references, plus an object-safe
dynamic equality/hash capability and a label-category bundle.

Shallow embedding conventions:
* A `&'static str` permanent reference is a `StrRef`: an address (`Nat`,
  handed out by a monotone allocator counter) together with the string
  content stored at that address.  `str::leak` copies the value to a fresh
  address; the allocator counter doubles as the allocation counter.
* The `Interner<T>`'s `OnceLock<RwLock<HashSet<&'static T>>>` becomes an
  explicit state record: an `inited` flag for the `OnceLock`, a `poisoned`
  flag for the `RwLock`, the registry contents as a list of permanent
  references, and the allocator counter.  `HashSet::get` (lookup by the
  value's structural equality) becomes `List.find?` with structural
  equality of the stored contents.
* A `Hasher` is modelled as the stream of words fed to it (`List Nat`);
  `hash` calls append words to the stream.
* Type-erased values (`dyn DynEq` / `dyn Label`) are modelled over an
  arbitrary family `Val : Nat → Type` of concrete types indexed by their
  `TypeId` tag; `downcast_ref` compares tags and transports on success.
-/

/-- A permanent `&'static str` reference: the address returned by the
allocator plus the string contents stored there (`as_ptr` = `addr`,
`len` = `val.length`). -/
structure StrRef where
  addr : Nat
  val : String
deriving DecidableEq

/-- `<str as Internable>::ref_eq`: `self.as_ptr() == other.as_ptr() &&
self.len() == other.len()`. -/
def strRefEq (a b : StrRef) : Bool :=
  a.addr == b.addr && a.val.length == b.val.length

/-- `<str as Internable>::ref_hash`: feeds `self.len()` then `self.as_ptr()`
to the hasher (modelled as appending to the word stream). -/
def strRefHash (a : StrRef) (state : List Nat) : List Nat :=
  state ++ [a.val.length, a.addr]

/-- `<str as Internable>::leak`: `Box::leak(self.to_owned().into_boxed_str())`
copies the contents to a freshly allocated permanent address. -/
def strLeak (freshAddr : Nat) (v : String) : StrRef :=
  ⟨freshAddr, v⟩

/-- `Interned<T>(pub &'static T)`: the canonical handle, wrapping the
permanent reference. -/
structure Interned (R : Type) where
  ptr : R
deriving DecidableEq

/-- `impl PartialEq for Interned<str>`: `self.0.ref_eq(other.0)`. -/
def internedStrEq (a b : Interned StrRef) : Bool :=
  strRefEq a.ptr b.ptr

/-- `impl Hash for Interned<str>`: `self.0.ref_hash(state)`. -/
def internedStrHash (a : Interned StrRef) (state : List Nat) : List Nat :=
  strRefHash a.ptr state

/-- A `LockResult<Guard>`: `Ok(guard)` or `Err(PoisonError(guard))`; the
poison error still carries the guard. -/
inductive LockResult (α : Type) where
  | ok (guard : α)
  | err (poison : α)
deriving DecidableEq

/-- `Result::unwrap_or_else(PoisonError::into_inner)`: returns the guard in
either case. -/
def LockResult.unwrapOrElseIntoInner : LockResult α → α
  | .ok g => g
  | .err g => g

/-- The state of an `Interner<str>`: the `OnceLock` initialisation flag, the
`RwLock` poison flag, the `HashSet<&'static str>` contents, and the
allocator's next fresh address (= allocation counter). -/
structure InternerState where
  inited : Bool
  poisoned : Bool
  registry : List StrRef
  nextAddr : Nat
deriving DecidableEq

/-- `Interner::new()`: an empty `OnceLock` (no registry yet); `a` is the
ambient allocator counter. -/
def Interner.new (a : Nat) : InternerState :=
  ⟨false, false, [], a⟩

/-- `OnceLock::get_or_init(Default::default)`: on first use installs a fresh
(unpoisoned) lock around an empty set. -/
def getOrInit (s : InternerState) : InternerState :=
  if s.inited then s else ⟨true, false, [], s.nextAddr⟩

/-- `RwLock::read()` on the registry lock: errors (carrying the guard) iff
the lock is poisoned. -/
def InternerState.readLock (s : InternerState) : LockResult (List StrRef) :=
  if s.poisoned then .err s.registry else .ok s.registry

/-- `RwLock::write()` on the registry lock: errors (carrying the guard) iff
the lock is poisoned. -/
def InternerState.writeLock (s : InternerState) : LockResult (List StrRef) :=
  if s.poisoned then .err s.registry else .ok s.registry

/-- `HashSet::get(value)`: lookup by the stored strings' structural
equality. -/
def findEq (reg : List StrRef) (v : String) : Option StrRef :=
  reg.find? (fun r => r.val == v)

/-- `Interner::<str>::intern`: double-checked deduplication.  Read-lock
check (recovering from poison via `PoisonError::into_inner`); on miss,
write-lock re-check; on second miss, leak a permanent copy and insert it. -/
def Interner.intern (s : InternerState) (v : String) :
    Interned StrRef × InternerState :=
  let s' := getOrInit s
  match findEq s'.readLock.unwrapOrElseIntoInner v with
  | some r => (⟨r⟩, s')
  | none =>
    match findEq s'.writeLock.unwrapOrElseIntoInner v with
    | some r => (⟨r⟩, s')
    | none =>
      let leaked := strLeak s'.nextAddr v
      (⟨leaked⟩, ⟨s'.inited, s'.poisoned, leaked :: s'.registry, s'.nextAddr + 1⟩)

/-- A sequence of `intern` calls, returning the final interner state. -/
def internAll (s : InternerState) (vs : List String) : InternerState :=
  vs.foldl (fun s v => (Interner.intern s v).2) s

/-- Well-formedness of a reachable interner state: every stored address was
allocated (below the counter), addresses are pairwise distinct, contents are
pairwise structurally distinct, and an uninitialised `OnceLock` holds no
data and no poison. -/
structure WF (s : InternerState) : Prop where
  addr_lt : ∀ r ∈ s.registry, r.addr < s.nextAddr
  addr_nodup : s.registry.Pairwise (fun a b => a.addr ≠ b.addr)
  val_nodup : s.registry.Pairwise (fun a b => a.val ≠ b.val)
  uninit : s.inited = false → s.registry = [] ∧ s.poisoned = false

/-! ### Concurrent model of `Interner::intern`

`intern` decomposes into two atomic phases, matching the `RwLock`
protocol: the shared-lock lookup (atomic read of the registry), and the
exclusive-lock re-check-and-insert (atomic, because the write guard is
held across both).  Threads interleave arbitrarily between phases. -/

/-- The control point of one thread inside `intern`: before the read-lock
lookup, between the phases (read lookup missed), or finished holding its
handle. -/
inductive TPhase where
  | beforeRead
  | beforeWrite
  | finished (r : StrRef)
deriving DecidableEq

/-- One thread: the value it is interning plus its control point. -/
structure CThread where
  val : String
  phase : TPhase
deriving DecidableEq

/-- A configuration of the concurrent system: the threads, the shared
registry, the allocator counter, and the log of `leak` calls (one entry per
permanent allocation, in order). -/
structure CConf where
  threads : List CThread
  registry : List StrRef
  nextAddr : Nat
  leaks : List StrRef
deriving DecidableEq

/-- One atomic step of thread `i`: the read-phase lookup, or the
write-phase re-check (inserting a leaked copy on a miss).  `none` when `i`
is out of range or already finished. -/
def stepThread (c : CConf) (i : Nat) : Option CConf :=
  match c.threads[i]? with
  | none => none
  | some t =>
    match t.phase with
    | .finished _ => none
    | .beforeRead =>
      match findEq c.registry t.val with
      | some r => some { c with threads := c.threads.set i ⟨t.val, .finished r⟩ }
      | none => some { c with threads := c.threads.set i ⟨t.val, .beforeWrite⟩ }
    | .beforeWrite =>
      match findEq c.registry t.val with
      | some r => some { c with threads := c.threads.set i ⟨t.val, .finished r⟩ }
      | none =>
        let leaked := strLeak c.nextAddr t.val
        some { threads := c.threads.set i ⟨t.val, .finished leaked⟩,
               registry := leaked :: c.registry,
               nextAddr := c.nextAddr + 1,
               leaks := c.leaks ++ [leaked] }

/-- The interleaving relation: some thread takes one atomic step. -/
def CStep (c c' : CConf) : Prop :=
  ∃ i, stepThread c i = some c'

/-- The initial configuration: every thread at its first phase, an empty
registry, and no allocations yet. -/
def initConf (vals : List String) : CConf :=
  ⟨vals.map (fun v => ⟨v, .beforeRead⟩), [], 0, []⟩

/-- Reachability by interleaved steps. -/
def CReach (c c' : CConf) : Prop :=
  Relation.ReflTransGen CStep c c'

/-! ### Type-erased values (`dyn DynEq`, `dyn Label`)

Concrete types are a family `Val : Nat → Type` indexed by `TypeId` tags;
a trait object is a dependent pair of a tag and a value of that type. -/

/-- A type-erased value: its concrete type's `TypeId` tag plus the value.
This is the model of a `&dyn DynEq` (tag = `Any::type_id`). -/
def AnyRef (Val : Nat → Type) : Type := (t : Nat) × Val t

/-- `<dyn Any>::downcast_ref::<T>` where `t0` is `T`'s tag: succeeds iff
the runtime tag matches, transporting the value to `Val t0`. -/
def downcastRef (Val : Nat → Type) (t0 : Nat) (x : AnyRef Val) :
    Option (Val t0) :=
  if h : x.1 = t0 then some (h ▸ x.2) else none

/-- The blanket `impl<T: Any + Eq> DynEq for T`, `dyn_eq`: downcast `other`
to `self`'s concrete type; on success delegate to that type's own `==`
(`beq t`), on failure return `false`.  `self` is the pair of `T`'s tag and
the value. -/
def dynEq (Val : Nat → Type) (beq : ∀ t, Val t → Val t → Bool)
    (self other : AnyRef Val) : Bool :=
  match downcastRef Val self.1 other with
  | some o => beq self.1 self.2 o
  | none => false

/-- Feeding one word to a `Hasher` modelled as its input stream. -/
def feedWord (n : Nat) (state : List Nat) : List Nat :=
  state ++ [n]

/-- The blanket `impl<T: DynEq + Hash> DynHash for T`, `dyn_hash`:
`self.type_id().hash(state)` (the tag, one word) followed by
`T::hash(self, state)` (the words `vhash` says `T`'s `Hash` impl feeds). -/
def dynHash (Val : Nat → Type) (vhash : ∀ t, Val t → List Nat)
    (x : AnyRef Val) (state : List Nat) : List Nat :=
  feedWord x.1 state ++ vhash x.1 x.2

/-- A permanent `&'static dyn Label` reference from `define_label!`: the
leaked address, the concrete type's tag (`as_dyn_eq().type_id()`), and the
stored value. -/
structure LabelRef (Val : Nat → Type) where
  addr : Nat
  tag : Nat
  value : Val tag

/-- `define_label!`'s `<dyn Label as Internable>::ref_eq`: returns `false`
when the concrete-type tags differ, otherwise compares the addresses. -/
def labelRefEq (Val : Nat → Type) (a b : LabelRef Val) : Bool :=
  if a.tag != b.tag then false
  else a.addr == b.addr

/-- `define_label!`'s `<dyn Label as Internable>::ref_hash`: feeds the
concrete-type tag, then the address; the stored value is not consulted. -/
def labelRefHash (Val : Nat → Type) (a : LabelRef Val) (state : List Nat) :
    List Nat :=
  feedWord a.addr (feedWord a.tag state)

/-- The state of a label category's dedicated interner
(`static …_INTERNER: Interner<dyn Label>`): registry of permanent erased
references plus the allocator counter. -/
structure LabelInternerState (Val : Nat → Type) where
  registry : List (LabelRef Val)
  nextAddr : Nat

/-- `define_label!`'s `impl Label for Interned<dyn Label>`,
`fn intern(&self) -> Self { *self }`: returns the handle itself.  The
category's global interner is threaded through as explicit state to make
its (absent) use visible: the body never touches it. -/
def internedLabelIntern (Val : Nat → Type) (s : LabelInternerState Val)
    (h : Interned (LabelRef Val)) :
    Interned (LabelRef Val) × LabelInternerState Val :=
  (h, s)

/-! ### Basic lemmas about the interner -/

theorem unwrap_readLock (s : InternerState) :
    s.readLock.unwrapOrElseIntoInner = s.registry := by
  unfold InternerState.readLock
  by_cases h : s.poisoned <;> simp [h, LockResult.unwrapOrElseIntoInner]

theorem unwrap_writeLock (s : InternerState) :
    s.writeLock.unwrapOrElseIntoInner = s.registry := by
  unfold InternerState.writeLock
  by_cases h : s.poisoned <;> simp [h, LockResult.unwrapOrElseIntoInner]

theorem findEq_some {reg : List StrRef} {v : String} {r : StrRef}
    (h : findEq reg v = some r) : r.val = v ∧ r ∈ reg := by
  refine ⟨?_, List.mem_of_find?_eq_some h⟩
  have := List.find?_some h
  exact eq_of_beq this

theorem findEq_none {reg : List StrRef} {v : String}
    (h : findEq reg v = none) : ∀ r ∈ reg, r.val ≠ v := by
  intro r hr
  have := List.find?_eq_none.mp h r hr
  simpa using this

theorem findEq_unique {reg : List StrRef} {v : String} {r : StrRef}
    (hnd : reg.Pairwise (fun a b => a.val ≠ b.val))
    (hr : r ∈ reg) (hv : r.val = v) : findEq reg v = some r := by
  induction reg with
  | nil => cases hr
  | cons x xs ih =>
    rcases List.mem_cons.mp hr with rfl | hmem
    · simp [findEq, List.find?, hv]
    · have hx : x.val ≠ v := by
        have := (List.pairwise_cons.mp hnd).1 r hmem
        rw [hv] at this
        exact this
      have : (x.val == v) = false := by
        simpa using hx
      simp only [findEq, List.find?, this]
      exact ih (List.pairwise_cons.mp hnd).2 hmem

theorem intern_found {s : InternerState} {v : String} {r : StrRef}
    (h : findEq (getOrInit s).registry v = some r) :
    Interner.intern s v = (⟨r⟩, getOrInit s) := by
  unfold Interner.intern
  simp [unwrap_readLock, h]

theorem intern_new {s : InternerState} {v : String}
    (h : findEq (getOrInit s).registry v = none) :
    Interner.intern s v =
      (⟨⟨(getOrInit s).nextAddr, v⟩⟩,
        ⟨(getOrInit s).inited, (getOrInit s).poisoned,
          ⟨(getOrInit s).nextAddr, v⟩ :: (getOrInit s).registry,
          (getOrInit s).nextAddr + 1⟩) := by
  unfold Interner.intern
  simp [unwrap_readLock, unwrap_writeLock, h, strLeak]

theorem getOrInit_eq {s : InternerState} (hw : WF s) :
    getOrInit s = ⟨true, s.poisoned, s.registry, s.nextAddr⟩ := by
  obtain ⟨i, p, reg, n⟩ := s
  by_cases h : i
  · subst h; rfl
  · have h0 : i = false := by simpa using h
    subst h0
    obtain ⟨h1, h2⟩ := hw.uninit rfl
    simp only at h1 h2
    subst h1; subst h2
    rfl

theorem strRefEq_refl (a : StrRef) : strRefEq a a = true := by
  simp [strRefEq]

theorem intern_found_wf {s : InternerState} {v : String} {r : StrRef}
    (hw : WF s) (h : findEq s.registry v = some r) :
    Interner.intern s v = (⟨r⟩, ⟨true, s.poisoned, s.registry, s.nextAddr⟩) := by
  have hg := getOrInit_eq hw
  have : findEq (getOrInit s).registry v = some r := by rw [hg]; exact h
  rw [intern_found this, hg]

theorem intern_new_wf {s : InternerState} {v : String}
    (hw : WF s) (h : findEq s.registry v = none) :
    Interner.intern s v =
      (⟨⟨s.nextAddr, v⟩⟩,
        ⟨true, s.poisoned, ⟨s.nextAddr, v⟩ :: s.registry, s.nextAddr + 1⟩) := by
  have hg := getOrInit_eq hw
  have h2 : findEq (getOrInit s).registry v = none := by rw [hg]; exact h
  rw [intern_new h2, hg]

theorem wf_intern {s : InternerState} (hw : WF s) (v : String) :
    WF (Interner.intern s v).2 := by
  cases h : findEq s.registry v with
  | some r =>
    rw [intern_found_wf hw h]
    exact ⟨hw.addr_lt, hw.addr_nodup, hw.val_nodup, by simp⟩
  | none =>
    rw [intern_new_wf hw h]
    refine ⟨?_, ?_, ?_, by simp⟩
    · intro r hr
      rcases List.mem_cons.mp hr with rfl | hmem
      · simp
      · exact Nat.lt_succ_of_lt (hw.addr_lt r hmem)
    · refine List.pairwise_cons.mpr ⟨?_, hw.addr_nodup⟩
      intro r hmem
      have := hw.addr_lt r hmem
      simp only
      omega
    · refine List.pairwise_cons.mpr ⟨?_, hw.val_nodup⟩
      intro r hmem
      have := findEq_none h r hmem
      simp only
      exact fun hh => this hh.symm

theorem intern_val {s : InternerState} (hw : WF s) (v : String) :
    ((Interner.intern s v).1).ptr.val = v := by
  cases h : findEq s.registry v with
  | some r => rw [intern_found_wf hw h]; exact (findEq_some h).1
  | none => rw [intern_new_wf hw h]

theorem intern_mem {s : InternerState} (hw : WF s) (v : String) :
    (Interner.intern s v).1.ptr ∈ (Interner.intern s v).2.registry := by
  cases h : findEq s.registry v with
  | some r => rw [intern_found_wf hw h]; exact (findEq_some h).2
  | none => rw [intern_new_wf hw h]; exact List.mem_cons_self _ _

theorem intern_mono {s : InternerState} (hw : WF s) (v : String) :
    s.registry ⊆ (Interner.intern s v).2.registry := by
  cases h : findEq s.registry v with
  | some r => rw [intern_found_wf hw h]; exact fun x hx => hx
  | none => rw [intern_new_wf hw h]; exact fun x hx => List.mem_cons_of_mem _ hx

theorem wf_internAll {s : InternerState} (hw : WF s) (vs : List String) :
    WF (internAll s vs) := by
  induction vs generalizing s with
  | nil => exact hw
  | cons v vs ih => exact ih (wf_intern hw v)

theorem internAll_mono {s : InternerState} (hw : WF s) (vs : List String) :
    s.registry ⊆ (internAll s vs).registry := by
  induction vs generalizing s with
  | nil => exact fun x hx => hx
  | cons v vs ih =>
    exact fun x hx => ih (wf_intern hw v) (intern_mono hw v hx)

theorem wf_new (a : Nat) : WF (Interner.new a) :=
  ⟨by simp [Interner.new], by simp [Interner.new], by simp [Interner.new],
    fun _ => ⟨rfl, rfl⟩⟩

theorem getOrInit_inited (s : InternerState) : (getOrInit s).inited = true := by
  unfold getOrInit
  by_cases h : s.inited <;> simp [h]

theorem getOrInit_idem (s : InternerState) :
    getOrInit (getOrInit s) = getOrInit s := by
  unfold getOrInit
  by_cases h : s.inited <;> simp [h]

theorem findEq_eq_none {reg : List StrRef} {v : String}
    (h : ∀ r ∈ reg, r.val ≠ v) : findEq reg v = none := by
  refine List.find?_eq_none.mpr ?_
  intro r hr
  simpa using h r hr

theorem findEq_cons_self (reg : List StrRef) (n : Nat) (v : String) :
    findEq (⟨n, v⟩ :: reg) v = some ⟨n, v⟩ := by
  simp [findEq, List.find?]

theorem getOrInit_of_inited {s : InternerState} (h : s.inited = true) :
    getOrInit s = s := by
  unfold getOrInit
  simp [h]

theorem intern_twice (s : InternerState) (v : String) :
    Interner.intern (Interner.intern s v).2 v =
      ((Interner.intern s v).1, (Interner.intern s v).2) := by
  cases h : findEq (getOrInit s).registry v with
  | some r =>
    rw [intern_found h]
    have h2 : findEq (getOrInit (getOrInit s)).registry v = some r := by
      rw [getOrInit_idem]; exact h
    rw [intern_found h2, getOrInit_idem]
  | none =>
    rw [intern_new h]
    have hgo : getOrInit (⟨(getOrInit s).inited, (getOrInit s).poisoned,
        ⟨(getOrInit s).nextAddr, v⟩ :: (getOrInit s).registry,
        (getOrInit s).nextAddr + 1⟩ : InternerState) =
        ⟨(getOrInit s).inited, (getOrInit s).poisoned,
          ⟨(getOrInit s).nextAddr, v⟩ :: (getOrInit s).registry,
          (getOrInit s).nextAddr + 1⟩ :=
      getOrInit_of_inited (getOrInit_inited s)
    have hf : findEq (getOrInit (⟨(getOrInit s).inited, (getOrInit s).poisoned,
        ⟨(getOrInit s).nextAddr, v⟩ :: (getOrInit s).registry,
        (getOrInit s).nextAddr + 1⟩ : InternerState)).registry v =
        some ⟨(getOrInit s).nextAddr, v⟩ := by
      rw [hgo]
      exact findEq_cons_self _ _ _
    rw [intern_found hf, hgo]

theorem intern_length {s : InternerState} (hw : WF s) (v : String) :
    s.registry.length ≤ (Interner.intern s v).2.registry.length := by
  cases h : findEq s.registry v with
  | some r => rw [intern_found_wf hw h]
  | none => rw [intern_new_wf hw h]; simp

/-! ### Claims C1, C2, C3, C5, C6 (sequential interner) -/

/-- C1: for two values interned through the same interner in any sequential
order (possibly with other interns in between), the returned handles are
equal under `Interned`'s identity-based equality iff the values are
structurally equal. -/
theorem interner_handle_eq_iff_value_eq (s : InternerState) (v1 v2 : String)
    (ws : List String) (hw : WF s) :
    (internedStrEq (Interner.intern s v1).1
      (Interner.intern (internAll (Interner.intern s v1).2 ws) v2).1 = true)
      ↔ v1 = v2 := by
  have hw1 : WF (Interner.intern s v1).2 := wf_intern hw v1
  have hwt : WF (internAll (Interner.intern s v1).2 ws) := wf_internAll hw1 ws
  have hmem1 : (Interner.intern s v1).1.ptr ∈
      (internAll (Interner.intern s v1).2 ws).registry :=
    internAll_mono hw1 ws (intern_mem hw v1)
  have hval1 : (Interner.intern s v1).1.ptr.val = v1 := intern_val hw v1
  have hval2 : (Interner.intern (internAll (Interner.intern s v1).2 ws) v2).1.ptr.val
      = v2 := intern_val hwt v2
  constructor
  · intro heq
    have hw2 : WF (Interner.intern (internAll (Interner.intern s v1).2 ws) v2).2 :=
      wf_intern hwt v2
    have hmem2 : (Interner.intern (internAll (Interner.intern s v1).2 ws) v2).1.ptr ∈
        (Interner.intern (internAll (Interner.intern s v1).2 ws) v2).2.registry :=
      intern_mem hwt v2
    have hmem1b : (Interner.intern s v1).1.ptr ∈
        (Interner.intern (internAll (Interner.intern s v1).2 ws) v2).2.registry :=
      intern_mono hwt v2 hmem1
    have haddr : (Interner.intern s v1).1.ptr.addr =
        (Interner.intern (internAll (Interner.intern s v1).2 ws) v2).1.ptr.addr := by
      have hb := heq
      unfold internedStrEq strRefEq at hb
      exact (of_decide_eq_true (Bool.and_elim_left hb))
    by_cases hne : (Interner.intern s v1).1.ptr =
        (Interner.intern (internAll (Interner.intern s v1).2 ws) v2).1.ptr
    · rw [← hval1, ← hval2, hne]
    · exfalso
      have hsym : Symmetric (fun a b : StrRef => a.addr ≠ b.addr) :=
        fun _ _ h hb => h hb.symm
      exact hw2.addr_nodup.forall hsym hmem1b hmem2 hne haddr
  · intro heq
    subst heq
    have hfind : findEq (internAll (Interner.intern s v1).2 ws).registry v1 =
        some (Interner.intern s v1).1.ptr :=
      findEq_unique hwt.val_nodup hmem1 hval1
    rw [intern_found_wf hwt hfind]
    unfold internedStrEq
    exact strRefEq_refl _

/-- A concrete instance of C1: interning "ab", then "x", then "ab" again
through the same interner gives handles equal iff the values are. -/
theorem interner_handle_eq_iff_value_eq_witness :
    (internedStrEq (Interner.intern (Interner.new 0) "ab").1
      (Interner.intern (internAll (Interner.intern (Interner.new 0) "ab").2 ["x"])
        "ab").1 = true)
      ↔ "ab" = "ab" :=
  interner_handle_eq_iff_value_eq (Interner.new 0) "ab" "ab" ["x"] (wf_new 0)

/-- C2: interning the same value twice through the same interner yields the
same handle both times — identity-equal, with the same permanent reference
(same address and, for unsized data, same length) — and the second call
leaves the state untouched. -/
theorem intern_idempotent (s : InternerState) (v : String) :
    (Interner.intern (Interner.intern s v).2 v).1 = (Interner.intern s v).1 ∧
    internedStrEq (Interner.intern s v).1
      (Interner.intern (Interner.intern s v).2 v).1 = true ∧
    (Interner.intern (Interner.intern s v).2 v).1.ptr.addr =
      (Interner.intern s v).1.ptr.addr ∧
    (Interner.intern (Interner.intern s v).2 v).1.ptr.val.length =
      (Interner.intern s v).1.ptr.val.length ∧
    (Interner.intern (Interner.intern s v).2 v).2 = (Interner.intern s v).2 := by
  have h := intern_twice s v
  rw [h]
  refine ⟨rfl, ?_, rfl, rfl, rfl⟩
  unfold internedStrEq
  exact strRefEq_refl _

/-- C3: after any sequence of interns from a fresh interner, the registry
holds at most one canonical reference per distinct value, and a further
intern never removes an entry (the registry only grows). -/
theorem registry_unique_and_monotone (a : Nat) (vs : List String) (v : String) :
    (internAll (Interner.new a) vs).registry.Pairwise (fun x y => x.val ≠ y.val) ∧
    (internAll (Interner.new a) vs).registry ⊆
      (Interner.intern (internAll (Interner.new a) vs) v).2.registry ∧
    (internAll (Interner.new a) vs).registry.length ≤
      (Interner.intern (internAll (Interner.new a) vs) v).2.registry.length := by
  have hw := wf_internAll (wf_new a) vs
  exact ⟨hw.val_nodup, intern_mono hw v, intern_length hw v⟩

/-- C5: on a hit (a structurally-equal entry is present) `intern` returns
that entry's handle with no allocation and an unchanged registry and
allocator; on a miss it returns the leaked copy, pushes exactly that one
entry, and bumps the allocator by one. -/
theorem intern_frame (s : InternerState) (v : String) (hw : WF s) :
    (∀ r ∈ s.registry, r.val = v →
        Interner.intern s v = (⟨r⟩, ⟨true, s.poisoned, s.registry, s.nextAddr⟩)) ∧
    ((∀ r ∈ s.registry, r.val ≠ v) →
        Interner.intern s v =
          (⟨⟨s.nextAddr, v⟩⟩,
            ⟨true, s.poisoned, ⟨s.nextAddr, v⟩ :: s.registry, s.nextAddr + 1⟩)) := by
  constructor
  · intro r hr hv
    exact intern_found_wf hw (findEq_unique hw.val_nodup hr hv)
  · intro hmiss
    exact intern_new_wf hw (findEq_eq_none hmiss)

/-- A concrete instance of C5: interning "a" into a fresh interner leaks one
copy at the next free address and inserts exactly that entry. -/
theorem intern_frame_witness :
    Interner.intern (Interner.new 0) "a" =
      (⟨⟨0, "a"⟩⟩, ⟨true, false, [⟨0, "a"⟩], 1⟩) :=
  (intern_frame (Interner.new 0) "a" (wf_new 0)).2
    (by intro r hr; cases hr)

/-- C6: a poisoned registry lock is recovered via
`PoisonError::into_inner`: `intern` behaves on the lock's inner data
exactly as with a healthy lock, returning the same handle and producing the
same registry and allocator state, never a failure. -/
theorem intern_poison_transparent (reg : List StrRef) (n : Nat) (v : String) :
    (Interner.intern ⟨true, true, reg, n⟩ v).1 =
      (Interner.intern ⟨true, false, reg, n⟩ v).1 ∧
    (Interner.intern ⟨true, true, reg, n⟩ v).2.registry =
      (Interner.intern ⟨true, false, reg, n⟩ v).2.registry ∧
    (Interner.intern ⟨true, true, reg, n⟩ v).2.nextAddr =
      (Interner.intern ⟨true, false, reg, n⟩ v).2.nextAddr := by
  have hgp : getOrInit ⟨true, true, reg, n⟩ = ⟨true, true, reg, n⟩ :=
    getOrInit_of_inited rfl
  have hgh : getOrInit ⟨true, false, reg, n⟩ = ⟨true, false, reg, n⟩ :=
    getOrInit_of_inited rfl
  cases h : findEq reg v with
  | some r =>
    have hp := intern_found (s := ⟨true, true, reg, n⟩) (by rw [hgp]; exact h)
    have hh := intern_found (s := ⟨true, false, reg, n⟩) (by rw [hgh]; exact h)
    rw [hp, hh, hgp, hgh]
    exact ⟨rfl, rfl, rfl⟩
  | none =>
    have hp := intern_new (s := ⟨true, true, reg, n⟩) (by rw [hgp]; exact h)
    have hh := intern_new (s := ⟨true, false, reg, n⟩) (by rw [hgh]; exact h)
    rw [hp, hh, hgp, hgh]
    exact ⟨rfl, rfl, rfl⟩

/-! ### Invariants of the concurrent model (claim C4) -/

/-- Invariant of reachable concurrent configurations: the registry is
well-formed (fresh, pairwise-distinct addresses; pairwise-distinct
contents), every leaked reference was inserted, no two leaks carry the same
value, and every finished thread holds a registry entry bearing its own
value. -/
structure CInv (c : CConf) : Prop where
  addr_lt : ∀ r ∈ c.registry, r.addr < c.nextAddr
  addr_nodup : c.registry.Pairwise (fun a b => a.addr ≠ b.addr)
  val_nodup : c.registry.Pairwise (fun a b => a.val ≠ b.val)
  leaks_mem : ∀ l ∈ c.leaks, l ∈ c.registry
  leaks_nodup : c.leaks.Pairwise (fun a b => a.val ≠ b.val)
  finished_ok : ∀ t ∈ c.threads, ∀ r, t.phase = .finished r →
    r.val = t.val ∧ r ∈ c.registry

theorem cinv_init (vals : List String) : CInv (initConf vals) := by
  refine ⟨by simp [initConf], by simp [initConf], by simp [initConf],
    by simp [initConf], by simp [initConf], ?_⟩
  intro t ht r hr
  simp only [initConf, List.mem_map] at ht
  obtain ⟨v, _, rfl⟩ := ht
  cases hr

theorem mem_of_getElem_some {l : List CThread} {i : Nat} {t : CThread}
    (h : l[i]? = some t) : t ∈ l := by
  obtain ⟨hlt, rfl⟩ := List.getElem?_eq_some.mp h
  exact List.getElem_mem hlt

theorem cinv_step {c c' : CConf} {i : Nat}
    (hstep : stepThread c i = some c') (hinv : CInv c) : CInv c' := by
  unfold stepThread at hstep
  split at hstep
  · exact absurd hstep (by simp)
  next t hidx =>
    have htmem : t ∈ c.threads := mem_of_getElem_some hidx
    split at hstep
    · exact absurd hstep (by simp)
    case _ hph =>
      split at hstep
      case _ r hfind =>
        obtain rfl := Option.some.inj hstep
        refine ⟨hinv.addr_lt, hinv.addr_nodup, hinv.val_nodup,
          hinv.leaks_mem, hinv.leaks_nodup, ?_⟩
        intro t2 ht2 r2 hr2
        rcases List.mem_or_eq_of_mem_set ht2 with hold | rfl
        · exact hinv.finished_ok t2 hold r2 hr2
        · cases hr2
          exact findEq_some hfind
      case _ hfind =>
        obtain rfl := Option.some.inj hstep
        refine ⟨hinv.addr_lt, hinv.addr_nodup, hinv.val_nodup,
          hinv.leaks_mem, hinv.leaks_nodup, ?_⟩
        intro t2 ht2 r2 hr2
        rcases List.mem_or_eq_of_mem_set ht2 with hold | rfl
        · exact hinv.finished_ok t2 hold r2 hr2
        · cases hr2
    case _ hph =>
      split at hstep
      case _ r hfind =>
        obtain rfl := Option.some.inj hstep
        refine ⟨hinv.addr_lt, hinv.addr_nodup, hinv.val_nodup,
          hinv.leaks_mem, hinv.leaks_nodup, ?_⟩
        intro t2 ht2 r2 hr2
        rcases List.mem_or_eq_of_mem_set ht2 with hold | rfl
        · exact hinv.finished_ok t2 hold r2 hr2
        · cases hr2
          exact findEq_some hfind
      case _ hfind =>
        obtain rfl := Option.some.inj hstep
        have hmiss := findEq_none hfind
        constructor
        · intro r hr
          rcases List.mem_cons.mp hr with rfl | hold
          · simp [strLeak]
          · exact Nat.lt_succ_of_lt (hinv.addr_lt r hold)
        · refine List.pairwise_cons.mpr ⟨?_, hinv.addr_nodup⟩
          intro r hold
          have := hinv.addr_lt r hold
          simp only [strLeak]
          omega
        · refine List.pairwise_cons.mpr ⟨?_, hinv.val_nodup⟩
          intro r hold
          simp only [strLeak]
          exact fun hh => hmiss r hold hh.symm
        · intro l hl
          rcases List.mem_append.mp hl with hold | hnew
          · exact List.mem_cons_of_mem _ (hinv.leaks_mem l hold)
          · rcases List.mem_singleton.mp hnew with rfl
            exact List.mem_cons_self _ _
        · refine List.pairwise_append.mpr
            ⟨hinv.leaks_nodup, List.pairwise_singleton _ _, ?_⟩
          intro l hl x hx
          rcases List.mem_singleton.mp hx with rfl
          simp only [strLeak]
          exact hmiss l (hinv.leaks_mem l hl)
        · intro t2 ht2 r2 hr2
          rcases List.mem_or_eq_of_mem_set ht2 with hold | rfl
          · obtain ⟨hv, hm⟩ := hinv.finished_ok t2 hold r2 hr2
            exact ⟨hv, List.mem_cons_of_mem _ hm⟩
          · cases hr2
            exact ⟨rfl, List.mem_cons_self _ _⟩

theorem cinv_reach {c c' : CConf} (h : CReach c c') (hinv : CInv c) :
    CInv c' := by
  induction h with
  | refl => exact hinv
  | tail _ hstep ih =>
    obtain ⟨i, hi⟩ := hstep
    exact cinv_step hi ih

theorem filter_val_length_le_one {l : List StrRef} {v : String}
    (h : l.Pairwise (fun a b => a.val ≠ b.val)) :
    (l.filter (fun x => x.val == v)).length ≤ 1 := by
  induction l with
  | nil => simp
  | cons x xs ih =>
    have hx := (List.pairwise_cons.mp h).1
    have hxs := (List.pairwise_cons.mp h).2
    by_cases hv : x.val = v
    · have hnil : xs.filter (fun y => y.val == v) = [] := by
        refine List.filter_eq_nil_iff.mpr ?_
        intro y hy
        have hne := hx y hy
        rw [hv] at hne
        simp
        exact fun hh => hne hh.symm
      simp [List.filter_cons, hv, hnil]
    · have : (x.val == v) = false := by simpa using hv
      simp only [List.filter_cons, this]
      exact ih hxs

/-- C4: in every interleaved execution of concurrent `intern` calls from a
fresh interner, `leak` runs at most once per distinct value (at most one
permanent allocation), and any two threads that finished interning equal
values hold the very same permanent reference — identity-equal handles. -/
theorem intern_single_winner (vals : List String) (c : CConf)
    (h : CReach (initConf vals) c) :
    (∀ v, (c.leaks.filter (fun l => l.val == v)).length ≤ 1) ∧
    (∀ t1 ∈ c.threads, ∀ t2 ∈ c.threads, ∀ r1 r2,
      t1.phase = .finished r1 → t2.phase = .finished r2 → t1.val = t2.val →
      r1 = r2 ∧ strRefEq r1 r2 = true) := by
  have hinv : CInv c := cinv_reach h (cinv_init vals)
  constructor
  · intro v
    exact filter_val_length_le_one hinv.leaks_nodup
  · intro t1 ht1 t2 ht2 r1 r2 hp1 hp2 hv
    obtain ⟨hv1, hm1⟩ := hinv.finished_ok t1 ht1 r1 hp1
    obtain ⟨hv2, hm2⟩ := hinv.finished_ok t2 ht2 r2 hp2
    have hval : r1.val = r2.val := by rw [hv1, hv2, hv]
    have hsym : Symmetric (fun a b : StrRef => a.val ≠ b.val) :=
      fun _ _ h hb => h hb.symm
    by_cases hne : r1 = r2
    · exact ⟨hne, by rw [hne]; exact strRefEq_refl _⟩
    · exact absurd hval (hinv.val_nodup.forall hsym hm1 hm2 hne)

/-- A concrete contended execution for C4: two threads both miss the read
check on "a", the first wins the write lock and leaks; the second re-checks
and adopts the winner.  One allocation; both finish with the same handle. -/
theorem intern_single_winner_witness :
    ((([⟨0, "a"⟩] : List StrRef).filter (fun l => l.val == "a")).length ≤ 1) ∧
    ((⟨0, "a"⟩ : StrRef) = ⟨0, "a"⟩ ∧ strRefEq ⟨0, "a"⟩ ⟨0, "a"⟩ = true) := by
  have s1 : CStep (initConf ["a", "a"])
      ⟨[⟨"a", .beforeWrite⟩, ⟨"a", .beforeRead⟩], [], 0, []⟩ :=
    ⟨0, by decide⟩
  have s2 : CStep ⟨[⟨"a", .beforeWrite⟩, ⟨"a", .beforeRead⟩], [], 0, []⟩
      ⟨[⟨"a", .beforeWrite⟩, ⟨"a", .beforeWrite⟩], [], 0, []⟩ :=
    ⟨1, by decide⟩
  have s3 : CStep ⟨[⟨"a", .beforeWrite⟩, ⟨"a", .beforeWrite⟩], [], 0, []⟩
      ⟨[⟨"a", .finished ⟨0, "a"⟩⟩, ⟨"a", .beforeWrite⟩],
        [⟨0, "a"⟩], 1, [⟨0, "a"⟩]⟩ :=
    ⟨0, by decide⟩
  have s4 : CStep ⟨[⟨"a", .finished ⟨0, "a"⟩⟩, ⟨"a", .beforeWrite⟩],
        [⟨0, "a"⟩], 1, [⟨0, "a"⟩]⟩
      ⟨[⟨"a", .finished ⟨0, "a"⟩⟩, ⟨"a", .finished ⟨0, "a"⟩⟩],
        [⟨0, "a"⟩], 1, [⟨0, "a"⟩]⟩ :=
    ⟨1, by decide⟩
  have hreach : CReach (initConf ["a", "a"])
      ⟨[⟨"a", .finished ⟨0, "a"⟩⟩, ⟨"a", .finished ⟨0, "a"⟩⟩],
        [⟨0, "a"⟩], 1, [⟨0, "a"⟩]⟩ :=
    Relation.ReflTransGen.head s1
      (Relation.ReflTransGen.head s2
        (Relation.ReflTransGen.head s3
          (Relation.ReflTransGen.head s4 Relation.ReflTransGen.refl)))
  have hmain := intern_single_winner ["a", "a"]
    ⟨[⟨"a", .finished ⟨0, "a"⟩⟩, ⟨"a", .finished ⟨0, "a"⟩⟩],
      [⟨0, "a"⟩], 1, [⟨0, "a"⟩]⟩ hreach
  refine ⟨hmain.1 "a", ?_⟩
  exact hmain.2 ⟨"a", .finished ⟨0, "a"⟩⟩ (by simp)
    ⟨"a", .finished ⟨0, "a"⟩⟩ (by simp) ⟨0, "a"⟩ ⟨0, "a"⟩ rfl rfl rfl

/-! ### Claims C7, C8, C9, C10 (dynamic capability and label bundle) -/

/-- C7: `dyn_eq` returns `false` whenever the runtime concrete types
differ (a mismatch is not an error), and with matching concrete types it
returns exactly what the concrete type's own `==` returns on the downcast
values. -/
theorem dynEq_spec (Val : Nat → Type) (beq : ∀ t, Val t → Val t → Bool)
    (x y : AnyRef Val) :
    (x.1 ≠ y.1 → dynEq Val beq x y = false) ∧
    (∀ (t : Nat) (a b : Val t), dynEq Val beq ⟨t, a⟩ ⟨t, b⟩ = beq t a b) := by
  constructor
  · intro hne
    unfold dynEq downcastRef
    have : ¬ (y.1 = x.1) := fun hh => hne hh.symm
    simp [this]
  · intro t a b
    unfold dynEq downcastRef
    simp

/-- A concrete instance of C7: erased naturals with distinct tags compare
unequal; with equal tags `dyn_eq` is the concrete `==`. -/
theorem dynEq_spec_witness :
    dynEq (fun _ => Nat) (fun _ a b => a == b) ⟨0, 5⟩ ⟨1, 5⟩ = false ∧
    dynEq (fun _ => Nat) (fun _ a b => a == b) ⟨2, 7⟩ ⟨2, 7⟩ = ((7 : Nat) == 7) :=
  ⟨(dynEq_spec (fun _ => Nat) (fun _ a b => a == b) ⟨0, 5⟩ ⟨1, 5⟩).1 (by decide),
   (dynEq_spec (fun _ => Nat) (fun _ a b => a == b) ⟨2, 7⟩ ⟨2, 7⟩).2 2 7 7⟩

/-- C8: `dyn_hash` feeds the concrete type's `TypeId` tag strictly before
the value's own structural hash words, so the input streams of two values
of different concrete types differ even when their structural hash words
coincide. -/
theorem dynHash_spec (Val : Nat → Type) (vhash : ∀ t, Val t → List Nat)
    (x y : AnyRef Val) (st : List Nat) :
    dynHash Val vhash x st = st ++ x.1 :: vhash x.1 x.2 ∧
    (x.1 ≠ y.1 → dynHash Val vhash x st ≠ dynHash Val vhash y st) := by
  have hx : dynHash Val vhash x st = st ++ x.1 :: vhash x.1 x.2 := by
    unfold dynHash feedWord
    simp
  refine ⟨hx, ?_⟩
  intro hne heq
  have hy : dynHash Val vhash y st = st ++ y.1 :: vhash y.1 y.2 := by
    unfold dynHash feedWord
    simp
  rw [hx, hy] at heq
  have := List.append_cancel_left heq
  exact hne (List.cons.inj this).1

/-- A concrete instance of C8: two erased values with identical structural
hash words but distinct tags yield distinct hasher streams, with the tag
first. -/
theorem dynHash_spec_witness :
    dynHash (fun _ => Nat) (fun _ v => [v]) ⟨0, 5⟩ [] = [] ++ 0 :: [5] ∧
    dynHash (fun _ => Nat) (fun _ v => [v]) ⟨0, 5⟩ [] ≠
      dynHash (fun _ => Nat) (fun _ v => [v]) ⟨1, 5⟩ [] :=
  ⟨(dynHash_spec (fun _ => Nat) (fun _ v => [v]) ⟨0, 5⟩ ⟨1, 5⟩ []).1,
   (dynHash_spec (fun _ => Nat) (fun _ v => [v]) ⟨0, 5⟩ ⟨1, 5⟩ []).2 (by decide)⟩

/-- C9: the erased label type's identity operations combine address with
runtime type tag: `ref_eq` is true iff both the concrete-type tags and the
addresses agree, and `ref_hash` feeds the tag then the address — never the
stored value's content. -/
theorem labelRef_identity_spec (Val : Nat → Type) (a b : LabelRef Val)
    (st : List Nat) :
    (labelRefEq Val a b = true ↔ a.tag = b.tag ∧ a.addr = b.addr) ∧
    labelRefHash Val a st = st ++ [a.tag, a.addr] ∧
    (∀ (t ad : Nat) (v1 v2 : Val t),
      labelRefHash Val ⟨ad, t, v1⟩ st = labelRefHash Val ⟨ad, t, v2⟩ st) := by
  refine ⟨?_, ?_, fun t ad v1 v2 => rfl⟩
  · unfold labelRefEq
    by_cases ht : a.tag = b.tag
    · simp [ht]
    · simp [ht, bne_iff_ne]
  · unfold labelRefHash feedWord
    simp

/-- C10: the `intern` implementation on an already-interned label handle
(`impl Label for Interned<dyn Label>`, body `*self`) returns the same
handle with the same inner reference and leaves the category's registry
state untouched: re-interning a handle is a pure identity operation. -/
theorem interned_label_intern_id (Val : Nat → Type)
    (s : LabelInternerState Val) (h : Interned (LabelRef Val)) :
    internedLabelIntern Val s h = (h, s) :=
  rfl
